import Mathlib

/-
Verification development for scripts/youtube-transcript-extractor.py.

The Python functions are shallowly embedded as executable Lean
functions over List Char (a Python string is a sequence of
characters).  The regular expressions of the script are small and
fixed, so each one is embedded directly as an executable scanner with
the exact semantics of re.search / re.sub / re.split / re.findall on
its concrete pattern.  Character classes are modelled at their ASCII
meaning, which is exact for every input considered here.
-/

set_option maxRecDepth 8000

/-! ## Identifier extraction (extract_video_id)

The script searches, in order, the two patterns

  (?:youtube\.com/watch\?v=|youtu\.be/|youtube\.com/embed/)([^&\n?#]+)
  youtube\.com/watch\?.*v=([^&\n?#]+)

returning group 1 of the first one that matches, and the input
unchanged when neither matches. -/

/-- Test for the regex character class complement of the capture group:
characters in the set of &, newline, question mark, hash terminate the
captured identifier. -/
def excluded (c : Char) : Bool := c == '&' || c == '\n' || c == '?' || c == '#'

/-- First alternative of the first pattern, the literal youtube.com/watch?v= . -/
def A1 : List Char := ['y','o','u','t','u','b','e','.','c','o','m','/','w','a','t','c','h','?','v','=']

/-- Second alternative of the first pattern, the literal youtu.be/ . -/
def A2 : List Char := ['y','o','u','t','u','.','b','e','/']

/-- Third alternative of the first pattern, the literal youtube.com/embed/ . -/
def A3 : List Char := ['y','o','u','t','u','b','e','.','c','o','m','/','e','m','b','e','d','/']

/-- Literal part of the second pattern, youtube.com/watch? . -/
def P2 : List Char := ['y','o','u','t','u','b','e','.','c','o','m','/','w','a','t','c','h','?']

/-- Match a literal pattern at the head of the input, returning the rest
of the input on success. -/
def litMatch : List Char → List Char → Option (List Char)
  | [], s => some s
  | _ :: _, [] => none
  | p :: ps, c :: cs => if p == c then litMatch ps cs else none

/-- One alternative of the first pattern tried at the current position:
the literal followed by the greedy nonempty capture group of
non-excluded characters.  Returns the captured group. -/
def capAt (alt s : List Char) : Option (List Char) :=
  match litMatch alt s with
  | none => none
  | some rest =>
    match rest.takeWhile (fun x => !excluded x) with
    | [] => none
    | c :: cs => some (c :: cs)

/-- The three alternatives of the first pattern tried in order at the
current position, as the regex engine does. -/
def scanAt1 (s : List Char) : Option (List Char) :=
  match capAt A1 s with
  | some v => some v
  | none =>
    match capAt A2 s with
    | some v => some v
    | none => capAt A3 s

/-- Leftmost search of the first pattern (re.search semantics: first
position, scanning left to right, at which the whole pattern matches). -/
def searchPat1 : List Char → Option (List Char)
  | [] => none
  | c :: cs =>
    match scanAt1 (c :: cs) with
    | some v => some v
    | none => searchPat1 cs

/-- The tail v=([^&\n?#]+) of the second pattern tried exactly at the
current position. -/
def vEqCap : List Char → Option (List Char)
  | 'v' :: '=' :: rest =>
    (match rest.takeWhile (fun x => !excluded x) with
     | [] => none
     | c :: cs => some (c :: cs))
  | _ => none

/-- The greedy .*v=([^&\n?#]+) tail of the second pattern: the dot does
not cross a newline and the engine prefers the rightmost v= that is
followed by a nonempty capture. -/
def pat2Tail : List Char → Option (List Char)
  | [] => none
  | c :: rest =>
    match (if c == '\n' then none else pat2Tail rest) with
    | some v => some v
    | none => vEqCap (c :: rest)

/-- The second pattern tried at the current position. -/
def scanAt2 (s : List Char) : Option (List Char) :=
  match litMatch P2 s with
  | none => none
  | some rest => pat2Tail rest

/-- Leftmost search of the second pattern. -/
def searchPat2 : List Char → Option (List Char)
  | [] => none
  | c :: cs =>
    match scanAt2 (c :: cs) with
    | some v => some v
    | none => searchPat2 cs

/-- Embedding of extract_video_id: the first pattern wins, then the
second, and a non-matching input is returned unchanged. -/
def extract_video_id (url : List Char) : List Char :=
  match searchPat1 url with
  | some v => v
  | none =>
    match searchPat2 url with
    | some v => v
    | none => url

/-! ## Transcript fetch (get_transcript)

The caption fetcher is an external collaborator.  It is modelled as a
pair of oracle results: the outcome of the preferred-language fetch and
the outcome of the any-language fetch, each either a list of fragment
texts or failure.  The function joins fragment texts with one space. -/

/-- Join a list of pieces with single spaces, as the Python join with a
space separator does. -/
def joinSpace (xs : List (List Char)) : List Char := List.intercalate [' '] xs

/-- Embedding of get_transcript over the two oracle outcomes: use the
preferred-language result when it exists, otherwise fall back once to
the any-language result, otherwise report absence. -/
def get_transcript (fetchPreferred fetchAny : Option (List (List Char))) :
    Option (List Char) :=
  match fetchPreferred with
  | some frags => some (joinSpace frags)
  | none =>
    match fetchAny with
    | some frags => some (joinSpace frags)
    | none => none

/-! ## Transcript cleaning (clean_transcript) -/

/-- ASCII whitespace as matched by the regex class of whitespace and by
the Python strip method. -/
def isSpace (c : Char) : Bool :=
  c == ' ' || c == '\t' || c == '\n' || c == '\r' || c == '\x0b' || c == '\x0c'

/-- Python strip: remove leading and trailing whitespace. -/
def stripEnds (s : List Char) : List Char :=
  ((s.dropWhile isSpace).reverse.dropWhile isSpace).reverse

/-- Replace every maximal run of whitespace by a single space, the
substitution of one-or-more whitespace by one space. -/
def collapseWS : List Char → List Char
  | [] => []
  | [c] => if isSpace c then [' '] else [c]
  | c :: d :: rest =>
    if isSpace c then
      if isSpace d then collapseWS (d :: rest)
      else ' ' :: collapseWS (d :: rest)
    else c :: collapseWS (d :: rest)

/-- Single left-to-right pass of the lazy span-removing substitution for
a pattern of an opening delimiter, a shortest non-newline run, and a
closing delimiter.  The first argument buffers (in reverse) a span that
has been opened but not yet closed; the buffer is discarded when the
closing delimiter arrives and flushed verbatim when a newline or the
end of input shows that no match starts at that opening delimiter. -/
def removeDelimsGo (opn cls : Char) : Option (List Char) → List Char → List Char
  | none, [] => []
  | none, c :: rest =>
    if c == opn then removeDelimsGo opn cls (some [c]) rest
    else c :: removeDelimsGo opn cls none rest
  | some buf, [] => buf.reverse
  | some buf, c :: rest =>
    if c == cls then removeDelimsGo opn cls none rest
    else if c == '\n' then buf.reverse ++ c :: removeDelimsGo opn cls none rest
    else removeDelimsGo opn cls (some (c :: buf)) rest

/-- Remove every lazily matched delimited span, as the substitution of
the bracketed or parenthesized pattern by the empty string. -/
def removeDelims (opn cls : Char) (s : List Char) : List Char :=
  removeDelimsGo opn cls none s

/-- Embedding of clean_transcript on a string input: an empty (falsy)
input returns the empty string; otherwise strip, collapse whitespace,
remove bracketed spans, remove parenthesized spans, and strip again. -/
def clean_transcript (t : List Char) : List Char :=
  if t.isEmpty then []
  else
    stripEnds (removeDelims '(' ')' (removeDelims '[' ']' (collapseWS (stripEnds t))))

/-- Embedding of clean_transcript on a possibly absent input: the Python
falsiness test sends the none value to the empty string as well. -/
def clean_transcript_opt : Option (List Char) → List Char
  | none => []
  | some t => clean_transcript t

/-! ## Outline construction (create_blog_outline) -/

/-- The sentence-ending characters of the splitting pattern. -/
def isPunct (c : Char) : Bool := c == '.' || c == '!' || c == '?'

/-- Split on maximal runs of sentence-ending characters, the re.split
semantics for a one-or-more character class: pieces at the two ends are
kept even when empty. -/
def sentSplit : List Char → List (List Char)
  | [] => [[]]
  | [c] => if isPunct c then [[], []] else [[c]]
  | c :: d :: rest =>
    if isPunct c then
      if isPunct d then sentSplit (d :: rest)
      else [] :: sentSplit (d :: rest)
    else
      match sentSplit (d :: rest) with
      | [] => [[c]]
      | p :: ps => (c :: p) :: ps

/-- The candidate sentences: split, strip each piece, drop empty pieces. -/
def sentencesOf (t : List Char) : List (List Char) :=
  ((sentSplit t).map stripEnds).filter (fun s => !s.isEmpty)

/-- Group a list into successive groups of four, the final partial group
flushed, exactly as the accumulation loop of the script does. -/
def chunk4 {α : Type} : List α → List (List α)
  | [] => []
  | [a] => [[a]]
  | [a, b] => [[a, b]]
  | [a, b, c] => [[a, b, c]]
  | a :: b :: c :: d :: rest => [a, b, c, d] :: chunk4 rest

/-- The paragraphs: groups of up to four sentences joined with spaces. -/
def paragraphsOf (t : List Char) : List (List Char) :=
  (chunk4 (sentencesOf t)).map joinSpace

/-- The introduction body: first paragraph, or the fallback text. -/
def introPart (paragraphs : List (List Char)) : List Char :=
  match paragraphs with
  | [] => "No transcript content available.".toList
  | p :: _ => p

/-- Decimal rendering of a number, as Python string interpolation does. -/
def natToChars (n : Nat) : List Char := (Nat.repr n).toList

/-- The numbered section blocks, one per paragraph after the first. -/
def sectionsFrom : Nat → List (List Char) → List Char
  | _, [] => []
  | i, p :: ps =>
    "### Section ".toList ++ natToChars i ++ "\n\n".toList ++ p ++ "\n\n".toList ++
      sectionsFrom (i + 1) ps

/-- Number of section blocks the formatter emits for a transcript. -/
def sectionCount (t : List Char) : Nat := ((paragraphsOf t).drop 1).length

/-- Word characters of the regex word class, at its ASCII meaning. -/
def wordChar (c : Char) : Bool := c.isAlphanum || c == '_'

/-- Maximal runs of word characters, the findall semantics of a word
bounded by word boundaries. -/
def tokens : List Char → List (List Char)
  | [] => []
  | [c] => if wordChar c then [[c]] else []
  | c :: d :: rest =>
    if wordChar c then
      if wordChar d then
        match tokens (d :: rest) with
        | [] => [[c]]
        | t :: ts => (c :: t) :: ts
      else [c] :: tokens rest
    else tokens (d :: rest)

/-- The words of the lowercased transcript. -/
def lowerTokens (t : List Char) : List (List Char) := tokens (t.map Char.toLower)

/-- Only words longer than four characters are counted. -/
def longTokens (t : List Char) : List (List Char) :=
  (lowerTokens t).filter (fun w => 4 < w.length)

/-- One counting step of the frequency dictionary: an existing key is
incremented in place, a new key is appended at the end, matching the
insertion-order preservation of the Python dictionary. -/
def insertWord : List (List Char × Nat) → List Char → List (List Char × Nat)
  | [], w => [(w, 1)]
  | (x, n) :: rest, w =>
    if x == w then (x, n + 1) :: rest else (x, n) :: insertWord rest w

/-- The word-frequency table in insertion order. -/
def wordFreq (t : List Char) : List (List Char × Nat) :=
  List.foldl insertWord [] (longTokens t)

/-- Stable insertion for the descending sort: the inserted element goes
before the first entry whose count is not larger, so that among equal
counts the earlier element of the input stays first. -/
def insertDesc (x : List Char × Nat) : List (List Char × Nat) → List (List Char × Nat)
  | [] => [x]
  | y :: ys => if x.2 < y.2 then y :: insertDesc x ys else x :: y :: ys

/-- Stable sort by count descending, the Python sorted on the count key
with the reverse flag (stability is documented behaviour). -/
def sortDesc : List (List Char × Nat) → List (List Char × Nat)
  | [] => []
  | x :: xs => insertDesc x (sortDesc xs)

/-- The ten most frequent long words. -/
def topWords (t : List Char) : List (List Char × Nat) :=
  (sortDesc (wordFreq t)).take 10

/-- Python capitalize: upper-case the first character, lower-case the rest. -/
def capFirst : List Char → List Char
  | [] => []
  | c :: cs => Char.toUpper c :: cs.map Char.toLower

/-- One key-takeaway bullet line. -/
def bulletLine (x : List Char × Nat) : List Char :=
  "- **".toList ++ capFirst x.1 ++ "** (mentioned ".toList ++ natToChars x.2 ++
    " times)\n".toList

/-- The emitted bullet lines: top ten words by count, keeping only those
mentioned more than twice. -/
def keyBullets (t : List Char) : List (List Char) :=
  ((topWords t).filter (fun x => 2 < x.2)).map bulletLine

/-- Embedding of create_blog_outline: the exact template concatenation
of the script. -/
def create_blog_outline (transcript video_url : List Char) : List Char :=
  "# Video Transcript Analysis and Outline\n\n**Source Video:** ".toList ++
    video_url ++
    "\n\n## Introduction\n\n".toList ++
    introPart (paragraphsOf transcript) ++
    "\n\n## Main Content Points\n\n".toList ++
    sectionsFrom 1 ((paragraphsOf transcript).drop 1) ++
    "## Key Takeaways\n\nBased on the transcript analysis, the main points discussed include:\n\n".toList ++
    List.flatten (keyBullets transcript) ++
    "\n## Conclusion\n\nThis video covers various topics as outlined above. The transcript provides insights into the speaker\x27s main points and discussion themes.\n\n---\n\n*Note: This outline was automatically generated from the video transcript. Some context and nuances may be lost in the automated analysis.*\n".toList

/-! ## Spec-side vocabulary used to state the claims -/

/-- Whether a pattern occurs at the head of the input. -/
def startsWith : List Char → List Char → Bool
  | [], _ => true
  | _ :: _, [] => false
  | p :: ps, c :: cs => p == c && startsWith ps cs

/-- Whether a pattern occurs as a contiguous substring of the input. -/
def containsSub (needle : List Char) : List Char → Bool
  | [] => startsWith needle []
  | c :: cs => startsWith needle (c :: cs) || containsSub needle cs

/-- Identifier characters in the sense of the claim: alphanumeric plus
underscore and hyphen. -/
def idChar (c : Char) : Bool := c.isAlphanum || c == '_' || c == '-'

/-- Index of the first occurrence of a word in a list of words. -/
def ffirst (ws : List (List Char)) (w : List Char) : Nat :=
  match ws with
  | [] => 0
  | x :: rest => if x == w then 0 else ffirst rest w + 1

/-! ## Claims -/

/-- Claim C8: clean_transcript applied to the empty string returns the
empty string, and applied to the absent (falsy) input returns the empty
string as well. -/
theorem clean_transcript_empty :
    clean_transcript [] = [] ∧ clean_transcript_opt none = [] :=
  ⟨rfl, rfl⟩

/-- Claim C2, counterexample: on the input of the claim the code does
not return the text without the double spaces, because whitespace is
collapsed before the bracketed and parenthesized spans are removed. -/
theorem clean_transcript_example_counterexample :
    clean_transcript "Hello [Music] world (laughs) today".toList ≠
      "Hello world today".toList := by decide

/-- Claim C2, amended: cleaning the input of the claim yields the text
with two spaces at each removed span, the normalization being performed
in the order whitespace collapse, bracketed-span removal,
parenthesized-span removal, trim. -/
theorem clean_transcript_example_amended :
    clean_transcript "Hello [Music] world (laughs) today".toList =
      "Hello  world  today".toList := by decide

/-- Claim C4: on the transcript of the claim the word-frequency pass
emits exactly one bullet, the literal line for the word alpha mentioned
three times. -/
theorem keyBullets_example :
    keyBullets "alpha alpha alpha beta beta gamma".toList =
      ["- **Alpha** (mentioned 3 times)\n".toList] := by decide

/-- Claim C7: with the caption fetcher modelled as an external oracle,
a failing preferred-language attempt followed by a succeeding
any-language attempt yields the space-joined fallback text, and only
when both attempts fail does get_transcript report absence. -/
theorem get_transcript_fallback (pf af : Option (List (List Char)))
    (frags : List (List Char)) (hpf : pf = none) (haf : af = some frags) :
    get_transcript pf af = some (joinSpace frags) ∧
      get_transcript none none = none := by
  subst hpf; subst haf; exact ⟨rfl, rfl⟩

/-- Witness for claim C7 at a concrete oracle outcome. -/
theorem get_transcript_fallback_witness :
    get_transcript none (some ["ab".toList, "cd".toList]) =
      some (joinSpace ["ab".toList, "cd".toList]) ∧
      get_transcript none none = none :=
  get_transcript_fallback none (some ["ab".toList, "cd".toList])
    ["ab".toList, "cd".toList] rfl rfl

/-- Claim C6: create_blog_outline is deterministic, two calls on equal
transcript and source-reference arguments produce identical output. -/
theorem create_blog_outline_deterministic (t₁ t₂ u₁ u₂ : List Char)
    (ht : t₁ = t₂) (hu : u₁ = u₂) :
    create_blog_outline t₁ u₁ = create_blog_outline t₂ u₂ := by
  subst ht; subst hu; rfl

/-- Witness for claim C6 at concrete arguments. -/
theorem create_blog_outline_deterministic_witness :
    create_blog_outline "hi there".toList "url".toList =
      create_blog_outline "hi there".toList "url".toList :=
  create_blog_outline_deterministic _ _ _ _ rfl rfl

/-! ## Helper lemmas on grouping -/

theorem chunk4_len5 {α : Type} : ∀ (l : List α), l.length = 5 →
    chunk4 l = [l.take 4, l.drop 4]
  | [_, _, _, _, _], _ => rfl
  | [], h => by simp at h
  | [_], h => by simp at h
  | [_, _], h => by simp at h
  | [_, _, _], h => by simp at h
  | [_, _, _, _], h => by simp at h
  | _ :: _ :: _ :: _ :: _ :: _ :: _, h => by simp at h

theorem chunk4_sizes {α : Type} : ∀ (l : List α) (g : List α),
    g ∈ chunk4 l → 1 ≤ g.length ∧ g.length ≤ 4
  | [], g, h => by simp [chunk4] at h
  | [a], g, h => by simp [chunk4] at h; subst h; exact ⟨by simp, by simp⟩
  | [a, b], g, h => by simp [chunk4] at h; subst h; exact ⟨by simp, by simp⟩
  | [a, b, c], g, h => by simp [chunk4] at h; subst h; exact ⟨by simp, by simp⟩
  | a :: b :: c :: d :: rest, g, h => by
    simp only [chunk4, List.mem_cons] at h
    rcases h with h | h
    · subst h; exact ⟨by simp, by simp⟩
    · exact chunk4_sizes rest g h

theorem chunk4_length {α : Type} : ∀ l : List α,
    (chunk4 l).length = (l.length + 3) / 4
  | [] => by simp [chunk4]
  | [_] => by simp [chunk4]
  | [_, _] => by simp [chunk4]
  | [_, _, _] => by simp [chunk4]
  | a :: b :: c :: d :: rest => by
    have ih := chunk4_length rest
    simp only [chunk4, List.length_cons, ih]
    omega

/-- Claim C3: the sample input splits into the four trimmed sentences
placed in a single paragraph, and any transcript with five sentences
yields exactly two paragraphs, the first four sentences joined in the
first and the fifth alone in the second. -/
theorem outline_sentence_grouping :
    sentencesOf "A. B! C? D".toList = ["A".toList, "B".toList, "C".toList, "D".toList] ∧
    paragraphsOf "A. B! C? D".toList = ["A B C D".toList] ∧
    ∀ t : List Char, (sentencesOf t).length = 5 →
      paragraphsOf t =
        [joinSpace ((sentencesOf t).take 4), joinSpace ((sentencesOf t).drop 4)] := by
  refine ⟨by decide, by decide, ?_⟩
  intro t h
  unfold paragraphsOf
  rw [chunk4_len5 _ h]
  rfl

/-- Witness for claim C3 on a concrete five-sentence transcript. -/
theorem outline_sentence_grouping_witness :
    paragraphsOf "a. b. c. d. e".toList =
      [joinSpace ((sentencesOf "a. b. c. d. e".toList).take 4),
       joinSpace ((sentencesOf "a. b. c. d. e".toList).drop 4)] :=
  outline_sentence_grouping.2.2 _ (by decide)

/-- Claim C9: every paragraph group holds between one and four
sentences, and the number of emitted section blocks is the number of
four-sentence groups minus one, never below zero. -/
theorem outline_section_count (t : List Char) :
    (∀ g ∈ chunk4 (sentencesOf t), 1 ≤ g.length ∧ g.length ≤ 4) ∧
    sectionCount t = max 0 (((sentencesOf t).length + 3) / 4 - 1) := by
  constructor
  · exact fun g hg => chunk4_sizes _ g hg
  · unfold sectionCount paragraphsOf
    rw [List.length_drop, List.length_map, chunk4_length, Nat.zero_max]

/-- Witness for claim C9 on a concrete five-sentence transcript. -/
theorem outline_section_count_witness :
    (1 ≤ (["a".toList, "b".toList, "c".toList, "d".toList] : List (List Char)).length ∧
      (["a".toList, "b".toList, "c".toList, "d".toList] : List (List Char)).length ≤ 4) ∧
    sectionCount "a. b. c. d. e".toList =
      max 0 (((sentencesOf "a. b. c. d. e".toList).length + 3) / 4 - 1) :=
  ⟨(outline_section_count "a. b. c. d. e".toList).1 _ (by decide),
   (outline_section_count "a. b. c. d. e".toList).2⟩

/-! ## Helper lemmas on substring containment -/

theorem startsWith_self_append : ∀ (n h : List Char), startsWith n (n ++ h) = true
  | [], _ => rfl
  | c :: cs, h => by
    have hstep : startsWith (c :: cs) ((c :: cs) ++ h) =
        (c == c && startsWith cs (cs ++ h)) := rfl
    rw [hstep, startsWith_self_append cs h]
    simp

theorem contains_self_append (n h : List Char) : containsSub n (n ++ h) = true := by
  cases n with
  | nil =>
    cases h with
    | nil => rfl
    | cons c cs => simp [containsSub, startsWith]
  | cons c cs =>
    have hstep : containsSub (c :: cs) ((c :: cs) ++ h) =
        (startsWith (c :: cs) ((c :: cs) ++ h) || containsSub (c :: cs) (cs ++ h)) := rfl
    rw [hstep, startsWith_self_append]
    simp

theorem contains_append_lift (n : List Char) : ∀ (l h : List Char),
    containsSub n h = true → containsSub n (l ++ h) = true
  | [], _, hh => hh
  | c :: l', h, hh => by
    have hstep : containsSub n ((c :: l') ++ h) =
        (startsWith n (c :: (l' ++ h)) || containsSub n (l' ++ h)) := rfl
    rw [hstep, contains_append_lift n l' h hh]
    simp

/-- Claim C5: when the paragraph list is empty the rendered document
contains the fallback text inside the Introduction section, and no
section block is emitted. -/
theorem outline_empty_transcript (t u : List Char) (h : paragraphsOf t = []) :
    containsSub "## Introduction\n\nNo transcript content available.".toList
        (create_blog_outline t u) = true ∧
    sectionsFrom 1 ((paragraphsOf t).drop 1) = [] ∧ sectionCount t = 0 := by
  refine ⟨?_, by rw [h]; rfl, by unfold sectionCount; rw [h]; rfl⟩
  have hshape : create_blog_outline t u =
      "# Video Transcript Analysis and Outline\n\n**Source Video:** ".toList ++
        (u ++ ("\n\n".toList ++
          ("## Introduction\n\nNo transcript content available.".toList ++
            ("\n\n## Main Content Points\n\n".toList ++
              ("## Key Takeaways\n\nBased on the transcript analysis, the main points discussed include:\n\n".toList ++
                (List.flatten (keyBullets t) ++
                  "\n## Conclusion\n\nThis video covers various topics as outlined above. The transcript provides insights into the speaker\x27s main points and discussion themes.\n\n---\n\n*Note: This outline was automatically generated from the video transcript. Some context and nuances may be lost in the automated analysis.*\n".toList)))))) := by
    unfold create_blog_outline
    rw [h]
    simp only [List.append_assoc]
    rfl
  rw [hshape]
  apply contains_append_lift
  apply contains_append_lift
  apply contains_append_lift
  exact contains_self_append _ _

/-- Witness for claim C5 on the empty transcript. -/
theorem outline_empty_transcript_witness :
    containsSub "## Introduction\n\nNo transcript content available.".toList
        (create_blog_outline [] "u".toList) = true ∧
    sectionsFrom 1 ((paragraphsOf []).drop 1) = [] ∧ sectionCount [] = 0 :=
  outline_empty_transcript [] "u".toList (by decide)

/-! ## Helper lemmas on the pattern scanners -/

theorem litMatch_self : ∀ (p r : List Char), litMatch p (p ++ r) = some r
  | [], _ => rfl
  | c :: cs, r => by
    have hstep : litMatch (c :: cs) ((c :: cs) ++ r) =
        (if c == c then litMatch cs (cs ++ r) else none) := rfl
    rw [hstep]
    simp [litMatch_self cs r]

theorem takeWhile_all : ∀ (l : List Char) (p : Char → Bool),
    (∀ x ∈ l, p x = true) → l.takeWhile p = l
  | [], _, _ => rfl
  | c :: cs, p, h => by
    have hc : p c = true := h c (by simp)
    simp [List.takeWhile_cons, hc, takeWhile_all cs p (fun x hx => h x (by simp [hx]))]

theorem litMatch_ne (p c : Char) (ps cs : List Char) (h : (p == c) = false) :
    litMatch (p :: ps) (c :: cs) = none := by
  have hstep : litMatch (p :: ps) (c :: cs) =
      (if p == c then litMatch ps cs else none) := rfl
  rw [hstep]
  simp [h]

theorem idChar_not_excluded (x : Char) (h : idChar x = true) : excluded x = false := by
  cases hx : excluded x
  · rfl
  · exfalso
    unfold excluded at hx
    rcases Bool.or_eq_true_iff.mp hx with h1 | h4
    · rcases Bool.or_eq_true_iff.mp h1 with h2 | h3
      · rcases Bool.or_eq_true_iff.mp h2 with h5 | h6
        · exact absurd h (by rw [eq_of_beq h5]; decide)
        · exact absurd h (by rw [eq_of_beq h6]; decide)
      · exact absurd h (by rw [eq_of_beq h3]; decide)
    · exact absurd h (by rw [eq_of_beq h4]; decide)

theorem capAt_self (alt : List Char) (c : Char) (cs : List Char)
    (hchars : ∀ x ∈ c :: cs, idChar x = true) :
    capAt alt (alt ++ (c :: cs)) = some (c :: cs) := by
  have hm := litMatch_self alt (c :: cs)
  have ht : (c :: cs).takeWhile (fun x => !excluded x) = c :: cs :=
    takeWhile_all _ _ (fun x hx => by rw [idChar_not_excluded x (hchars x hx)]; rfl)
  simp [capAt, hm, ht]

theorem scanAt1_ne (c : Char) (cs : List Char) (h : c ≠ 'y') :
    scanAt1 (c :: cs) = none := by
  have hy : ('y' == c) = false := beq_eq_false_iff_ne.mpr (Ne.symm h)
  have h1 : litMatch A1 (c :: cs) = none := by
    simp only [A1]; exact litMatch_ne _ _ _ _ hy
  have h2 : litMatch A2 (c :: cs) = none := by
    simp only [A2]; exact litMatch_ne _ _ _ _ hy
  have h3 : litMatch A3 (c :: cs) = none := by
    simp only [A3]; exact litMatch_ne _ _ _ _ hy
  simp [scanAt1, capAt, h1, h2, h3]

theorem searchPat1_skip : ∀ (l r : List Char), (∀ c ∈ l, c ≠ 'y') →
    searchPat1 (l ++ r) = searchPat1 r
  | [], _, _ => rfl
  | c :: l', r, h => by
    have hc : c ≠ 'y' := h c (by simp)
    have hstep : searchPat1 ((c :: l') ++ r) =
        (match scanAt1 (c :: (l' ++ r)) with
         | some v => some v
         | none => searchPat1 (l' ++ r)) := rfl
    rw [hstep, scanAt1_ne c _ hc]
    exact searchPat1_skip l' r (fun x hx => h x (by simp [hx]))

theorem searchPat1_of_scan (s v : List Char) (h : scanAt1 s = some v) :
    searchPat1 s = some v := by
  cases s with
  | nil =>
    rw [show scanAt1 [] = none from rfl] at h
    cases h
  | cons c cs =>
    have hstep : searchPat1 (c :: cs) =
        (match scanAt1 (c :: cs) with
         | some v => some v
         | none => searchPat1 cs) := rfl
    rw [hstep, h]

theorem litMatch_none_of_starts_false : ∀ (p s : List Char),
    startsWith p s = false → litMatch p s = none
  | [], _, h => by cases h
  | _ :: _, [], _ => rfl
  | p :: ps, c :: cs, h => by
    have hstep : litMatch (p :: ps) (c :: cs) =
        (if p == c then litMatch ps cs else none) := rfl
    rw [hstep]
    cases hpc : (p == c) with
    | false => simp [hpc]
    | true =>
      have hs : startsWith ps cs = false := by
        have hstep2 : startsWith (p :: ps) (c :: cs) =
            (p == c && startsWith ps cs) := rfl
        rw [hstep2, hpc] at h
        simpa using h
      simp [hpc, litMatch_none_of_starts_false ps cs hs]

theorem searchPat1_none : ∀ s : List Char, containsSub A1 s = false →
    containsSub A2 s = false → containsSub A3 s = false → searchPat1 s = none
  | [], _, _, _ => rfl
  | c :: cs, h1, h2, h3 => by
    rw [show containsSub A1 (c :: cs) =
        (startsWith A1 (c :: cs) || containsSub A1 cs) from rfl] at h1
    rw [show containsSub A2 (c :: cs) =
        (startsWith A2 (c :: cs) || containsSub A2 cs) from rfl] at h2
    rw [show containsSub A3 (c :: cs) =
        (startsWith A3 (c :: cs) || containsSub A3 cs) from rfl] at h3
    have m1 := litMatch_none_of_starts_false _ _ (Bool.or_eq_false_iff.mp h1).1
    have m2 := litMatch_none_of_starts_false _ _ (Bool.or_eq_false_iff.mp h2).1
    have m3 := litMatch_none_of_starts_false _ _ (Bool.or_eq_false_iff.mp h3).1
    have hscan : scanAt1 (c :: cs) = none := by simp [scanAt1, capAt, m1, m2, m3]
    have hstep : searchPat1 (c :: cs) =
        (match scanAt1 (c :: cs) with
         | some v => some v
         | none => searchPat1 cs) := rfl
    rw [hstep, hscan]
    exact searchPat1_none cs (Bool.or_eq_false_iff.mp h1).2
      (Bool.or_eq_false_iff.mp h2).2 (Bool.or_eq_false_iff.mp h3).2

/-- Claim C1, counterexample: an input containing none of the three
recognized URL substrings (nor their short forms) on which
extract_video_id nevertheless does not return the input unchanged,
because the second, fallback pattern matches. -/
theorem extract_video_id_counterexample :
    containsSub A1 "youtube.com/watch?a=1&v=xyz".toList = false ∧
    containsSub A2 "youtube.com/watch?a=1&v=xyz".toList = false ∧
    containsSub A3 "youtube.com/watch?a=1&v=xyz".toList = false ∧
    containsSub "watch?v=".toList "youtube.com/watch?a=1&v=xyz".toList = false ∧
    containsSub "embed/".toList "youtube.com/watch?a=1&v=xyz".toList = false ∧
    extract_video_id "youtube.com/watch?a=1&v=xyz".toList ≠
      "youtube.com/watch?a=1&v=xyz".toList := by decide

/-- Claim C1, amended: for the three canonical URL shapes holding a
nonempty identifier of alphanumerics, underscore and hyphen,
extract_video_id returns the identifier; and an input containing none
of the three URL substrings, and on which the fallback pattern of
watch? followed by v= finds no match, is returned unchanged. -/
theorem extract_video_id_amended :
    (∀ (c : Char) (cs : List Char), (∀ x ∈ c :: cs, idChar x = true) →
      extract_video_id ("https://www.youtube.com/watch?v=".toList ++ (c :: cs)) = c :: cs ∧
      extract_video_id ("https://youtu.be/".toList ++ (c :: cs)) = c :: cs ∧
      extract_video_id ("https://www.youtube.com/embed/".toList ++ (c :: cs)) = c :: cs) ∧
    (∀ s : List Char, containsSub A1 s = false → containsSub A2 s = false →
      containsSub A3 s = false → searchPat2 s = none → extract_video_id s = s) := by
  constructor
  · intro c cs hchars
    refine ⟨?_, ?_, ?_⟩
    · have hsplit : "https://www.youtube.com/watch?v=".toList ++ (c :: cs) =
          "https://www.".toList ++ (A1 ++ (c :: cs)) := rfl
      have hscan : scanAt1 (A1 ++ (c :: cs)) = some (c :: cs) := by
        simp [scanAt1, capAt_self A1 c cs hchars]
      have hsearch : searchPat1 ("https://www.youtube.com/watch?v=".toList ++ (c :: cs)) =
          some (c :: cs) := by
        rw [hsplit, searchPat1_skip _ _ (by decide)]
        exact searchPat1_of_scan _ _ hscan
      unfold extract_video_id
      rw [hsearch]
    · have hsplit : "https://youtu.be/".toList ++ (c :: cs) =
          "https://".toList ++ (A2 ++ (c :: cs)) := rfl
      have e1 : capAt A1 (A2 ++ (c :: cs)) = none := rfl
      have hscan : scanAt1 (A2 ++ (c :: cs)) = some (c :: cs) := by
        simp [scanAt1, e1, capAt_self A2 c cs hchars]
      have hsearch : searchPat1 ("https://youtu.be/".toList ++ (c :: cs)) =
          some (c :: cs) := by
        rw [hsplit, searchPat1_skip _ _ (by decide)]
        exact searchPat1_of_scan _ _ hscan
      unfold extract_video_id
      rw [hsearch]
    · have hsplit : "https://www.youtube.com/embed/".toList ++ (c :: cs) =
          "https://www.".toList ++ (A3 ++ (c :: cs)) := rfl
      have e1 : capAt A1 (A3 ++ (c :: cs)) = none := rfl
      have e2 : capAt A2 (A3 ++ (c :: cs)) = none := rfl
      have hscan : scanAt1 (A3 ++ (c :: cs)) = some (c :: cs) := by
        simp [scanAt1, e1, e2, capAt_self A3 c cs hchars]
      have hsearch : searchPat1 ("https://www.youtube.com/embed/".toList ++ (c :: cs)) =
          some (c :: cs) := by
        rw [hsplit, searchPat1_skip _ _ (by decide)]
        exact searchPat1_of_scan _ _ hscan
      unfold extract_video_id
      rw [hsearch]
  · intro s h1 h2 h3 h4
    simp [extract_video_id, searchPat1_none s h1 h2 h3, h4]

/-- Witness for claim C1 at concrete inputs for both halves. -/
theorem extract_video_id_amended_witness :
    extract_video_id ("https://www.youtube.com/watch?v=".toList ++ ('a' :: "bc123".toList)) =
      'a' :: "bc123".toList ∧
    extract_video_id "hello world".toList = "hello world".toList :=
  ⟨(extract_video_id_amended.1 'a' "bc123".toList (by decide)).1,
   extract_video_id_amended.2 "hello world".toList (by decide) (by decide)
     (by decide) (by decide)⟩

/-! ## Helper lemmas on the word-frequency ranking -/

/-- Target ordering of the ranked list: strictly larger count first, and
among equal counts the order given by the relation S. -/
def rankOrder (S : List Char × Nat → List Char × Nat → Prop)
    (a b : List Char × Nat) : Prop :=
  b.2 < a.2 ∨ (a.2 = b.2 ∧ S a b)

theorem mem_insertDesc (x : List Char × Nat) :
    ∀ (ys : List (List Char × Nat)) (z : List Char × Nat),
      z ∈ insertDesc x ys ↔ z = x ∨ z ∈ ys
  | [], z => by simp [insertDesc]
  | y :: ys, z => by
    by_cases hc : x.2 < y.2
    · simp only [insertDesc, if_pos hc, List.mem_cons, mem_insertDesc x ys z]
      tauto
    · simp only [insertDesc, if_neg hc, List.mem_cons]

theorem insertDesc_pairwise (S : List Char × Nat → List Char × Nat → Prop)
    (x : List Char × Nat) :
    ∀ ys : List (List Char × Nat), List.Pairwise (rankOrder S) ys →
      (∀ y ∈ ys, S x y) → List.Pairwise (rankOrder S) (insertDesc x ys)
  | [], _, _ => by simp [insertDesc]
  | y :: ys, hp, hS => by
    rcases List.pairwise_cons.mp hp with ⟨hy, hys⟩
    by_cases hc : x.2 < y.2
    · simp only [insertDesc, if_pos hc]
      refine List.pairwise_cons.mpr ⟨?_, insertDesc_pairwise S x ys hys
        (fun z hz => hS z (List.mem_cons_of_mem _ hz))⟩
      intro z hz
      rcases (mem_insertDesc x ys z).mp hz with rfl | hzys
      · exact Or.inl hc
      · exact hy z hzys
    · simp only [insertDesc, if_neg hc]
      refine List.pairwise_cons.mpr ⟨?_, hp⟩
      intro z hz
      rcases List.mem_cons.mp hz with rfl | hzys
      · rcases Nat.lt_or_ge z.2 x.2 with hlt | hge
        · exact Or.inl hlt
        · exact Or.inr ⟨Nat.le_antisymm hge (Nat.not_lt.mp hc), hS z (by simp)⟩
      · rcases hy z hzys with hlt | ⟨heq, _⟩
        · exact Or.inl (Nat.lt_of_lt_of_le hlt (Nat.not_lt.mp hc))
        · rcases Nat.lt_or_ge z.2 x.2 with hlt2 | hge2
          · exact Or.inl hlt2
          · refine Or.inr ⟨Nat.le_antisymm hge2 (heq ▸ Nat.not_lt.mp hc), ?_⟩
            exact hS z (List.mem_cons_of_mem _ hzys)

theorem mem_sortDesc : ∀ (l : List (List Char × Nat)) (z : List Char × Nat),
    z ∈ sortDesc l ↔ z ∈ l
  | [], z => by simp [sortDesc]
  | x :: xs, z => by
    simp [sortDesc, mem_insertDesc x (sortDesc xs) z, mem_sortDesc xs z]

theorem sortDesc_pairwise (S : List Char × Nat → List Char × Nat → Prop) :
    ∀ l : List (List Char × Nat), List.Pairwise S l →
      List.Pairwise (rankOrder S) (sortDesc l)
  | [], _ => by simp [sortDesc]
  | x :: xs, hp => by
    rcases List.pairwise_cons.mp hp with ⟨hx, hxs⟩
    simp only [sortDesc]
    exact insertDesc_pairwise S x (sortDesc xs) (sortDesc_pairwise S xs hxs)
      (fun z hz => hx z ((mem_sortDesc xs z).mp hz))

/-- Keys of the frequency table, in table order. -/
def keysOf (l : List (List Char × Nat)) : List (List Char) := l.map Prod.fst

theorem keysOf_cons (p : List Char × Nat) (l : List (List Char × Nat)) :
    keysOf (p :: l) = p.1 :: keysOf l := rfl

theorem insertWord_keys_mem : ∀ (acc : List (List Char × Nat)) (w : List Char),
    w ∈ keysOf acc → keysOf (insertWord acc w) = keysOf acc
  | [], w, h => by simp [keysOf] at h
  | (x, n) :: rest, w, h => by
    cases hxw : x == w with
    | true =>
      have hstep : insertWord ((x, n) :: rest) w = (x, n + 1) :: rest := by
        simp [insertWord, hxw]
      rw [hstep, keysOf_cons, keysOf_cons]
    | false =>
      have hne : x ≠ w := beq_eq_false_iff_ne.mp hxw
      have hw : w ∈ keysOf rest := by
        rw [keysOf_cons] at h
        rcases List.mem_cons.mp h with e | h'
        · exact absurd e.symm hne
        · exact h'
      have hstep : insertWord ((x, n) :: rest) w = (x, n) :: insertWord rest w := by
        simp [insertWord, hxw]
      rw [hstep, keysOf_cons, insertWord_keys_mem rest w hw, keysOf_cons]

theorem insertWord_keys_new : ∀ (acc : List (List Char × Nat)) (w : List Char),
    w ∉ keysOf acc → keysOf (insertWord acc w) = keysOf acc ++ [w]
  | [], w, _ => by simp [insertWord, keysOf]
  | (x, n) :: rest, w, h => by
    have hne : x ≠ w := by
      intro e
      subst e
      exact h (by rw [keysOf_cons]; exact List.mem_cons_self _ _)
    have hxw : (x == w) = false := beq_eq_false_iff_ne.mpr hne
    have hw : w ∉ keysOf rest := by
      intro hmem
      exact h (by rw [keysOf_cons]; exact List.mem_cons_of_mem _ hmem)
    have hstep : insertWord ((x, n) :: rest) w = (x, n) :: insertWord rest w := by
      simp [insertWord, hxw]
    rw [hstep, keysOf_cons, insertWord_keys_new rest w hw, keysOf_cons]
    rfl

theorem mem_keys_foldl_gen : ∀ (ws : List (List Char))
    (acc : List (List Char × Nat)) (x : List Char),
    x ∈ keysOf (List.foldl insertWord acc ws) ↔ x ∈ keysOf acc ∨ x ∈ ws
  | [], acc, x => by simp
  | w :: ws', acc, x => by
    rw [List.foldl_cons, mem_keys_foldl_gen ws' (insertWord acc w) x]
    have hstep : x ∈ keysOf (insertWord acc w) ↔ x ∈ keysOf acc ∨ x = w := by
      by_cases hmem : w ∈ keysOf acc
      · rw [insertWord_keys_mem acc w hmem]
        constructor
        · exact Or.inl
        · rintro (h | rfl)
          · exact h
          · exact hmem
      · rw [insertWord_keys_new acc w hmem]
        simp
    rw [hstep]
    simp [List.mem_cons]
    tauto

theorem mem_keys_tab (ws : List (List Char)) (x : List Char) :
    x ∈ keysOf (List.foldl insertWord [] ws) ↔ x ∈ ws := by
  simpa [keysOf] using mem_keys_foldl_gen ws [] x

theorem ffirst_append_left : ∀ (ws l : List (List Char)) (x : List Char),
    x ∈ ws → ffirst (ws ++ l) x = ffirst ws x
  | [], _, x, h => by simp at h
  | y :: ws', l, x, h => by
    cases hyx : y == x with
    | true => simp [ffirst, hyx]
    | false =>
      have hx : x ∈ ws' := by
        rcases List.mem_cons.mp h with e | h'
        · exact absurd e.symm (beq_eq_false_iff_ne.mp hyx)
        · exact h'
      simp [ffirst, hyx, ffirst_append_left ws' l x hx]

theorem ffirst_append_new : ∀ (ws : List (List Char)) (w : List Char),
    w ∉ ws → ffirst (ws ++ [w]) w = ws.length
  | [], w, _ => by simp [ffirst]
  | y :: ws', w, h => by
    have hne : y ≠ w := fun e => h (by simp [e])
    have hyw : (y == w) = false := beq_eq_false_iff_ne.mpr hne
    simp [ffirst, hyw, ffirst_append_new ws' w (fun hw => h (List.mem_cons_of_mem _ hw))]

theorem ffirst_lt_length : ∀ (ws : List (List Char)) (x : List Char),
    x ∈ ws → ffirst ws x < ws.length
  | [], x, h => by simp at h
  | y :: ws', x, h => by
    cases hyx : y == x with
    | true => simp [ffirst, hyx]
    | false =>
      have hx : x ∈ ws' := by
        rcases List.mem_cons.mp h with e | h'
        · exact absurd e.symm (beq_eq_false_iff_ne.mp hyx)
        · exact h'
      simpa [ffirst, hyx] using ffirst_lt_length ws' x hx

theorem foldl_keys_pairwise (ws : List (List Char)) :
    List.Pairwise (fun a b => ffirst ws a < ffirst ws b)
      (keysOf (List.foldl insertWord [] ws)) := by
  induction ws using List.reverseRecOn with
  | nil => simp [keysOf]
  | append_singleton ws w ih =>
    rw [List.foldl_append]
    simp only [List.foldl_cons, List.foldl_nil]
    by_cases hmem : w ∈ keysOf (List.foldl insertWord [] ws)
    · rw [insertWord_keys_mem _ w hmem]
      refine List.Pairwise.imp_of_mem ?_ ih
      intro a b ha hb hab
      have haw : a ∈ ws := (mem_keys_tab ws a).mp ha
      have hbw : b ∈ ws := (mem_keys_tab ws b).mp hb
      rw [ffirst_append_left ws [w] a haw, ffirst_append_left ws [w] b hbw]
      exact hab
    · rw [insertWord_keys_new _ w hmem]
      rw [List.pairwise_append]
      refine ⟨?_, List.pairwise_singleton _ _, ?_⟩
      · refine List.Pairwise.imp_of_mem ?_ ih
        intro a b ha hb hab
        have haw : a ∈ ws := (mem_keys_tab ws a).mp ha
        have hbw : b ∈ ws := (mem_keys_tab ws b).mp hb
        rw [ffirst_append_left ws [w] a haw, ffirst_append_left ws [w] b hbw]
        exact hab
      · intro a ha b hb
        have hb' : b = w := by simpa using hb
        have haw : a ∈ ws := (mem_keys_tab ws a).mp ha
        have hwnot : w ∉ ws := fun hw => hmem ((mem_keys_tab ws w).mpr hw)
        rw [hb', ffirst_append_left ws [w] a haw, ffirst_append_new ws w hwnot]
        exact ffirst_lt_length ws a haw

theorem wordFreq_pairwise (t : List Char) :
    List.Pairwise
      (fun a b => ffirst (longTokens t) a.1 < ffirst (longTokens t) b.1)
      (wordFreq t) := by
  have h := foldl_keys_pairwise (longTokens t)
  rw [keysOf, List.pairwise_map] at h
  exact h

/-- Claim C10: in the ranked list feeding the bullets, entries appear in
strictly descending count order except that entries of equal count
appear in the order of the first occurrence of their word among the
counted words of the transcript; so the bullet order is a function of
the transcript alone. -/
theorem topWords_order (t : List Char) :
    List.Pairwise
      (fun a b => b.2 < a.2 ∨
        (a.2 = b.2 ∧ ffirst (longTokens t) a.1 < ffirst (longTokens t) b.1))
      (topWords t) := by
  have hsort := sortDesc_pairwise
    (fun a b => ffirst (longTokens t) a.1 < ffirst (longTokens t) b.1)
    (wordFreq t) (wordFreq_pairwise t)
  exact List.Pairwise.sublist (List.take_sublist 10 _) hsort

/-- Witness for claim C10 on a concrete transcript. -/
theorem topWords_order_witness :
    List.Pairwise
      (fun a b => b.2 < a.2 ∨
        (a.2 = b.2 ∧ ffirst (longTokens "alpha beta alpha gamma".toList) a.1 <
          ffirst (longTokens "alpha beta alpha gamma".toList) b.1))
      (topWords "alpha beta alpha gamma".toList) :=
  topWords_order "alpha beta alpha gamma".toList
